import Mathlib

/-!
Verification of the response-shaping pipeline of the image-analysis server
(`/api/analyze-image` endpoint). Strings are modelled as `List Char`, with
each element standing for one JS string unit; all the inputs exercised here
are plain ASCII, where the two notions coincide. JSON values are modelled by
the inductive `JSValue`.
-/

set_option maxRecDepth 100000

/-- Shorthand turning a string literal into the `List Char` representation
used throughout this development. -/
def strL (s : String) : List Char := s.toList

/-- The characters matched by the JS regex class `\s` (ASCII part: space,
tab, newline, carriage return, vertical tab, form feed). The raw tags and
fixed strings exercised in this development contain only ASCII whitespace. -/
def jsWhitespace (c : Char) : Bool :=
  c = ' ' || c = '\t' || c = '\n' || c = '\r' || c = '\x0b' || c = '\x0c'

/-- A character matched by the class `[#\s]` used in the tag-normalization
regex at line 115 of the server source. -/
def runChar (c : Char) : Bool := c = '#' || jsWhitespace c

/-- Remove trailing JS whitespace (the right half of `String.prototype.trim`). -/
def trimEnd : List Char → List Char
  | [] => []
  | c :: cs =>
    match trimEnd cs with
    | [] => if jsWhitespace c then [] else [c]
    | r => c :: r

/-- `String.prototype.trim`: strip leading and trailing whitespace. -/
def jsTrim (s : List Char) : List Char := trimEnd (s.dropWhile jsWhitespace)

/-- Core of `t.replace(/[#\s]+/g, ' ')` (line 115): the flag records whether
we are inside a run of `[#\s]` characters; each maximal run is replaced by a
single space. -/
def collapseGo : Bool → List Char → List Char
  | _, [] => []
  | inRun, c :: cs =>
    if runChar c then
      if inRun then collapseGo true cs else ' ' :: collapseGo true cs
    else c :: collapseGo false cs

/-- `t.replace(/[#\s]+/g, ' ')`: every maximal run of `#`/whitespace
characters becomes one space. -/
def collapseRuns (s : List Char) : List Char := collapseGo false s

/-- `t.replace(/[#\s]+/g, ' ').trim()` — the per-tag normalization applied
at line 115 of the server source. -/
def normalizeTag (s : List Char) : List Char := jsTrim (collapseRuns s)

/-- JSON values as produced by `JSON.parse` (numbers restricted to the
integers, which covers every value exercised in this development). -/
inductive JSValue where
  | null
  | bool (b : Bool)
  | num (n : Int)
  | str (s : List Char)
  | arr (elems : List JSValue)
  | obj (fields : List (List Char × JSValue))

/-- JS truthiness of a value (`Boolean(v)`): empty string, `0`, `false` and
`null` are falsy; arrays and objects are always truthy. -/
def truthy : JSValue → Bool
  | .null => false
  | .bool b => b
  | .num n => n != 0
  | .str s => !s.isEmpty
  | .arr _ => true
  | .obj _ => true

/-- Truthiness of a possibly-absent value: an absent property (`undefined`)
is falsy. -/
def truthyOpt : Option JSValue → Bool
  | none => false
  | some v => truthy v

/-- Property lookup on a parsed-object field list. `JSON.parse` keeps the
last occurrence of a duplicated key, hence the left fold. -/
def lookupLast (fields : List (List Char × JSValue)) (k : List Char) : Option JSValue :=
  fields.foldl (fun acc kv => if kv.1 = k then some kv.2 else acc) none

/-- Property access `v[k]`: `undefined` (`none`) on every non-object. -/
def jsGetField : JSValue → List Char → Option JSValue
  | .obj fs, k => lookupLast fs k
  | _, _ => none

/-- The literal `'...'` appended by the truncation branches. -/
def ellipsisDots : List Char := strL ("...")

/-- Lines 109-110 (and 152-157) of the server source:
`s.length > limit ? s.substring(0, limit - 3) + '...' : s`.
`List.take` reproduces the clamping of `substring` (a negative end index is
treated as 0, exactly as truncated `Nat` subtraction does). -/
def fitField (s : List Char) (limit : Nat) : List Char :=
  if limit < s.length then s.take (limit - 3) ++ ellipsisDots else s

/-- One raw tag through the filter-then-map of lines 113-115: kept when it
is a string with non-empty trim (`typeof t === 'string' && t.trim().length
> 0`), in which case it is normalized. Note the filter inspects the tag
BEFORE normalization. -/
def normTagStep : JSValue → Option (List Char)
  | .str s => if 0 < (jsTrim s).length then some (normalizeTag s) else none
  | _ => none

/-- Lines 113-115 of the server source: keep the raw tags that are strings
with non-empty trim, then normalize each survivor. -/
def normalizedTags (tags : List JSValue) : List (List Char) :=
  tags.filterMap normTagStep

/-- Lines 117-128 of the server source: the greedy accumulation loop.
`cur` is `currentLength`, `first` records `i === 0` (reachable iterations
coincide with "nothing admitted yet" because the loop breaks on the first
rejection). -/
def accumGo (limit : Nat) : List (List Char) → Nat → Bool → List (List Char)
  | [], _, _ => []
  | t :: ts, cur, first =>
    let sep := if first then 0 else 2
    if cur + sep + t.length ≤ limit then t :: accumGo limit ts (cur + sep + t.length) false
    else []

/-- `finalTags` of the server source: normalization followed by the greedy
accumulation against `tagsLength`. -/
def finalTags (tags : List JSValue) (limit : Nat) : List (List Char) :=
  accumGo limit (normalizedTags tags) 0 true

/-- The shaped output `{ title, description, tags }` on the string-typed
success path. -/
structure AnalysisResult where
  title : List Char
  description : List Char
  tags : List (List Char)
deriving DecidableEq

/-- The Field Fitter (lines 108-134) on a shape-validated candidate whose
`title` and `description` are strings: produce `finalResult`. -/
def fitResult (title description : List Char) (tags : List JSValue)
    (titleLimit descriptionLimit tagsLimit : Nat) : AnalysisResult :=
  { title := fitField title titleLimit,
    description := fitField description descriptionLimit,
    tags := finalTags tags tagsLimit }

/-- Rendering of a tag list by `tags.join(", ")` — the joined form whose
length the tags budget constrains. -/
def joinTags : List (List Char) → List Char
  | [] => []
  | [t] => t
  | t :: ts => t ++ ',' :: ' ' :: joinTags ts

/-- Index of the first occurrence of `c` in `s`, as scanned by the regex
engine. -/
def firstIdx (c : Char) : List Char → Option Nat
  | [] => none
  | d :: ds => if d = c then some 0 else (firstIdx c ds).map (· + 1)

/-- Index of the last occurrence of `c` in `s`. -/
def lastIdx (c : Char) : List Char → Option Nat
  | [] => none
  | d :: ds =>
    match lastIdx c ds with
    | some j => some (j + 1)
    | none => if d = c then some 0 else none

/-- Line 88 of the server source: `text.match(/\x7b[\s\S]*\x7d/)`. The regex
matches starting at the first `\x7b` and, `[\s\S]*` being greedy, ends at the
last `\x7d`; there is a match exactly when some `\x7d` occurs after the first
`\x7b`. `none` models the `!jsonMatch` branch that raises the extraction
error. -/
def extractJson (text : List Char) : Option (List Char) :=
  match firstIdx '\x7b' text, lastIdx '\x7d' text with
  | some i, some j => if i < j then some ((text.take (j + 1)).drop i) else none
  | _, _ => none

/-- JSON whitespace accepted between tokens by `JSON.parse`. -/
def jsonWs (c : Char) : Bool := c = ' ' || c = '\t' || c = '\n' || c = '\r'

/-- Body of a JSON string literal, after the opening quote: returns the
decoded characters and the remaining input. The escapes decoded are the
single-character ones; `\u` escapes are rejected (none occur in the
completions exercised here). -/
def parseStringBody : List Char → Option (List Char × List Char)
  | [] => none
  | '"' :: cs => some ([], cs)
  | '\\' :: [] => none
  | '\\' :: e :: cs2 =>
    let decoded : Option Char :=
      if e = '"' then some '"'
      else if e = '\\' then some '\\'
      else if e = '/' then some '/'
      else if e = 'n' then some '\n'
      else if e = 't' then some '\t'
      else if e = 'r' then some '\r'
      else if e = 'b' then some (Char.ofNat 8)
      else if e = 'f' then some (Char.ofNat 12)
      else none
    match decoded with
    | some ch => (parseStringBody cs2).map fun p => (ch :: p.1, p.2)
    | none => none
  | c :: cs => (parseStringBody cs).map fun p => (c :: p.1, p.2)

/-- Match an expected literal tail (as in `true`, `false`, `null`). -/
def expectLit : List Char → List Char → Option (List Char)
  | [], s => some s
  | _ :: _, [] => none
  | l :: ls, c :: cs => if c = l then expectLit ls cs else none

/-- ASCII digit test. -/
def isDigit (c : Char) : Bool := '0' ≤ c && c ≤ '9'

/-- Decimal value of a digit string. -/
def digitsToNat (ds : List Char) : Nat :=
  ds.foldl (fun a c => a * 10 + (c.toNat - '0'.toNat)) 0

/-- Integer literal (optional minus, then digits). Fractional and exponent
parts of JSON numbers are not modelled; no number at all occurs in the
completions this development evaluates. -/
def parseIntLit (s : List Char) : Option (Int × List Char) :=
  match s with
  | '-' :: rest =>
    let ds := rest.takeWhile isDigit
    if ds.isEmpty then none else some (-(digitsToNat ds : Int), rest.dropWhile isDigit)
  | _ =>
    let ds := s.takeWhile isDigit
    if ds.isEmpty then none else some ((digitsToNat ds : Int), s.dropWhile isDigit)

mutual

/-- Recursive-descent model of `JSON.parse` (line 95 of the server source):
parse one JSON value, returning it with the unconsumed input. The fuel
argument bounds the recursion depth and is sized generously by `jsonParse`. -/
def parseValue : Nat → List Char → Option (JSValue × List Char)
  | 0, _ => none
  | fuel + 1, s =>
    match s.dropWhile jsonWs with
    | [] => none
    | c :: cs =>
      if c = '"' then (parseStringBody cs).map fun p => (JSValue.str p.1, p.2)
      else if c = '\x7b' then
        match cs.dropWhile jsonWs with
        | '\x7d' :: rest => some (JSValue.obj [], rest)
        | _ => (parseObjItems fuel cs).map fun p => (JSValue.obj p.1, p.2)
      else if c = '[' then
        match cs.dropWhile jsonWs with
        | ']' :: rest => some (JSValue.arr [], rest)
        | _ => (parseArrItems fuel cs).map fun p => (JSValue.arr p.1, p.2)
      else if c = 't' then (expectLit (strL ("rue")) cs).map fun r => (JSValue.bool true, r)
      else if c = 'f' then (expectLit (strL ("alse")) cs).map fun r => (JSValue.bool false, r)
      else if c = 'n' then (expectLit (strL ("ull")) cs).map fun r => (JSValue.null, r)
      else (parseIntLit (c :: cs)).map fun p => (JSValue.num p.1, p.2)

/-- One-or-more comma-separated array elements, then `]`. -/
def parseArrItems : Nat → List Char → Option (List JSValue × List Char)
  | 0, _ => none
  | fuel + 1, s =>
    match parseValue fuel s with
    | none => none
    | some (v, rest) =>
      match rest.dropWhile jsonWs with
      | ',' :: r2 => (parseArrItems fuel r2).map fun p => (v :: p.1, p.2)
      | ']' :: r2 => some ([v], r2)
      | _ => none

/-- One-or-more `"key": value` members, then the closing brace. -/
def parseObjItems : Nat → List Char → Option (List (List Char × JSValue) × List Char)
  | 0, _ => none
  | fuel + 1, s =>
    match s.dropWhile jsonWs with
    | '"' :: cs =>
      match parseStringBody cs with
      | none => none
      | some (key, rest) =>
        match rest.dropWhile jsonWs with
        | ':' :: r2 =>
          match parseValue fuel r2 with
          | none => none
          | some (v, r3) =>
            match r3.dropWhile jsonWs with
            | ',' :: r4 => (parseObjItems fuel r4).map fun p => ((key, v) :: p.1, p.2)
            | '\x7d' :: r4 => some ([(key, v)], r4)
            | _ => none
        | _ => none
    | _ => none

end

/-- `JSON.parse` on a whole string: one value, then only whitespace may
remain. `none` models the `catch (parseError)` branch of lines 96-99. -/
def jsonParse (s : List Char) : Option JSValue :=
  match parseValue (s.length + 2) s with
  | some (v, rest) => if (rest.dropWhile jsonWs).isEmpty then some v else none
  | none => none

/-- `Array.isArray` applied to a possibly-absent property value. -/
def isArrOpt : Option JSValue → Bool
  | some (JSValue.arr _) => true
  | _ => false

/-- Lines 102-106 of the server source: the shape check
`!title || !description || !Array.isArray(tags)` applied to the parsed
candidate, via property access on it. `true` means validation passes. -/
def validateShape (g : JSValue) : Bool :=
  truthyOpt (jsGetField g (strL ("title"))) &&
  truthyOpt (jsGetField g (strL ("description"))) &&
  isArrOpt (jsGetField g (strL ("tags")))

/-- The truncation of lines 109-110 applied to the raw candidate field.
`v.length` is a number only for strings and arrays; for other values the
comparison `v.length > limit` is false and the value passes through
unchanged. A too-long array reaches `v.substring`, which throws (`none`,
routed to the fallback by the surrounding `catch`). An object carrying an
own `length` property is not modelled; no verified claim reaches that case. -/
def fitFieldJS : JSValue → Nat → Option JSValue
  | .str s, limit => some (.str (fitField s limit))
  | .arr xs, limit => if limit < xs.length then none else some (.arr xs)
  | v, _ => some v

/-- Outcome of the awaited inference call of lines 72-83: either the
transport/API error path or a completed response text. -/
inductive InferenceOutcome where
  | transportErr
  | completed (text : List Char)

/-- The endpoint's possible responses: a 200 JSON body shaped
`{ title, description, tags }`, the 400 of line 36, or the 500 of
lines 162-169 (reachable only from faults outside the modelled pipeline). -/
inductive ApiResponse where
  | ok (title description : JSValue) (tags : List (List Char))
  | badRequest
  | serverError

/-- HTTP status of each response form. -/
def statusCode : ApiResponse → Nat
  | .ok _ _ _ => 200
  | .badRequest => 400
  | .serverError => 500

/-- Lines 146-157 of the server source: the fallback result. The template
title depends on `titleLength > 30`; title and description then go through
the same truncate-with-ellipsis rule as the success path; the fixed tag list
is left as is. -/
def fallbackResult (titleLimit descriptionLimit : Nat) : AnalysisResult :=
  { title :=
      fitField
        (if 30 < titleLimit then strL ("Image Analysis (Processing Complete)")
         else strL ("Image Analysis (Analyzed)")) titleLimit,
    description :=
      fitField
        (strL ("The image has been processed and analyzed with detailed consideration of visual elements, composition, colors, and context.")) descriptionLimit,
    tags := [strL ("Image Analysis"), strL ("Visual Processing"), strL ("AI Detection")] }

/-- The `res.json(fallbackResult)` response of line 159. -/
def fallbackResp (titleLimit descriptionLimit : Nat) : ApiResponse :=
  .ok (.str (fallbackResult titleLimit descriptionLimit).title)
    (.str (fallbackResult titleLimit descriptionLimit).description)
    (fallbackResult titleLimit descriptionLimit).tags

/-- The `/api/analyze-image` handler (lines 31-170) for a request carrying
the three limits, with the awaited inference call abstracted by `outcome`.
The second component records whether the inference call was issued. The
`catch (apiError)` block turns every failure after the missing-image check —
transport error, failed extraction, failed parse, failed shape check, or a
`TypeError` thrown by the fitter — into the fallback response. -/
def analyzeImage (image : Option JSValue) (titleLength descriptionLength tagsLength : Nat)
    (outcome : InferenceOutcome) : ApiResponse × Bool :=
  if truthyOpt image = false then (.badRequest, false)
  else
    match outcome with
    | .transportErr => (fallbackResp titleLength descriptionLength, true)
    | .completed text =>
      match extractJson text with
      | none => (fallbackResp titleLength descriptionLength, true)
      | some span =>
        match jsonParse span with
        | none => (fallbackResp titleLength descriptionLength, true)
        | some g =>
          if validateShape g = false then (fallbackResp titleLength descriptionLength, true)
          else
            match jsGetField g (strL ("title")), jsGetField g (strL ("description")),
                jsGetField g (strL ("tags")) with
            | some tv, some dv, some (JSValue.arr rawTags) =>
              match fitFieldJS tv titleLength, fitFieldJS dv descriptionLength with
              | some ft, some fd => (.ok ft fd (finalTags rawTags tagsLength), true)
              | _, _ => (fallbackResp titleLength descriptionLength, true)
            | _, _, _ => (fallbackResp titleLength descriptionLength, true)

/-- The `generationConfig` object of lines 67-70. The temperature is the
literal `0.9`, modelled as the rational `9 / 10`. -/
structure GenerationConfig where
  maxOutputTokens : Int
  temperature : ℚ
deriving DecidableEq

/-- Lines 67-70 of the server source:
`maxOutputTokens: Math.max(512, Math.ceil((descriptionLength + titleLength) / 2) + 256)`
with `temperature: 0.9`. `Math.ceil` of the real quotient is `Int.ceil` over
`ℚ`. -/
def generationConfig (titleLength descriptionLength : Int) : GenerationConfig :=
  { maxOutputTokens := max 512 (⌈((descriptionLength + titleLength : ℚ)) / 2⌉ + 256),
    temperature := 9 / 10 }

theorem ellipsisDots_length : ellipsisDots.length = 3 := rfl

/-- With a budget of at least 3, the truncate-with-ellipsis rule respects the
budget. -/
theorem fitField_length_le (s : List Char) (L : Nat) (h : 3 ≤ L) :
    (fitField s L).length ≤ L := by
  unfold fitField
  split
  · rename_i hlt
    simp only [List.length_append, List.length_take, ellipsisDots_length]
    omega
  · omega

/-- The truncate-with-ellipsis rule is a projection: applying it to its own
output changes nothing (for every budget, including budgets below 3, where
the output is the bare ellipsis). -/
theorem fitField_idem (s : List Char) (L : Nat) :
    fitField (fitField s L) L = fitField s L := by
  by_cases h : L < s.length
  · have hs : fitField s L = s.take (L - 3) ++ ellipsisDots := by
      rw [fitField, if_pos h]
    rw [hs]
    by_cases h3 : 3 ≤ L
    · have hlen : (s.take (L - 3) ++ ellipsisDots).length = L := by
        simp only [List.length_append, List.length_take, ellipsisDots_length]
        omega
      rw [fitField, if_neg (by omega)]
    · have h0 : L - 3 = 0 := by omega
      have hdots : s.take (L - 3) ++ ellipsisDots = ellipsisDots := by
        rw [h0]; simp
      rw [hdots, fitField, if_pos (by rw [ellipsisDots_length]; omega), h0]
      simp
  · have hs : fitField s L = s := by rw [fitField, if_neg h]
    rw [hs, fitField, if_neg h]

/-- Character cost of rendering a tag list joined with a 2-character
separator; the flag tells whether the first element still pays no separator. -/
def tagCost : Bool → List (List Char) → Nat
  | _, [] => 0
  | first, t :: ts => (if first then 0 else 2) + t.length + tagCost false ts

theorem tagCost_false_eq (t : List Char) (ts : List (List Char)) :
    tagCost false (t :: ts) = 2 + tagCost true (t :: ts) := by
  simp [tagCost]; omega

/-- The length of the `", "`-joined rendering is exactly the accumulated
cost. -/
theorem joinTags_length : ∀ ts, (joinTags ts).length = tagCost true ts := by
  intro ts
  induction ts with
  | nil => rfl
  | cons t ts ih =>
    cases ts with
    | nil => simp [joinTags, tagCost]
    | cons u us =>
      show (t ++ ',' :: ' ' :: joinTags (u :: us)).length = tagCost true (t :: u :: us)
      rw [List.length_append]
      simp only [List.length_cons, ih]
      rw [show tagCost true (t :: u :: us) = t.length + tagCost false (u :: us) by
            simp [tagCost],
          tagCost_false_eq]
      omega

/-- Invariant of the greedy loop: if the running length is within budget,
the produced tags plus the running length stay within budget. -/
theorem accumGo_cost (L : Nat) :
    ∀ ts cur first, cur ≤ L → cur + tagCost first (accumGo L ts cur first) ≤ L := by
  intro ts
  induction ts with
  | nil => intro cur first h; simpa [accumGo, tagCost] using h
  | cons t ts ih =>
    intro cur first h
    simp only [accumGo]
    by_cases hc : cur + (if first then 0 else 2) + t.length ≤ L
    · rw [if_pos hc]
      have hrec := ih (cur + (if first then 0 else 2) + t.length) false hc
      simp only [tagCost]
      omega
    · rw [if_neg hc]
      simpa [tagCost] using h

/-- The joined length of the fitted tags never exceeds the tags budget. -/
theorem finalTags_joined_le (tags : List JSValue) (L : Nat) :
    (joinTags (finalTags tags L)).length ≤ L := by
  have h := accumGo_cost L (normalizedTags tags) 0 true (Nat.zero_le L)
  rw [joinTags_length]
  unfold finalTags
  omega

/-- C1, counterexample to the claim as stated: with `titleLimit = 1` (a
positive integer) and the shape-validated candidate
`(title "ab", description "cd", tags [])`, the Field Fitter replaces the
title by the bare ellipsis `"..."` of length 3, violating
`title.length <= titleLimit`. (`substring(0, 1 - 3)` clamps to the empty
prefix and the appended `'...'` alone exceeds the budget.) -/
theorem c1_counterexample :
    ¬ ((fitResult (strL ("ab")) (strL ("cd")) [] 1 1 1).title.length ≤ 1) := by
  decide

/-- C1 (amended): for limits `titleLimit ≥ 3`, `descriptionLimit ≥ 3` and
`tagsLimit ≥ 1`, every AnalysisResult produced by the Field Fitter on a
shape-validated candidate with string title and description satisfies
`title.length ≤ titleLimit`, `description.length ≤ descriptionLimit`, and
the `", "`-joined tag rendering has length `≤ tagsLimit`. -/
theorem c1_fitter_bounds (title description : List Char) (tags : List JSValue)
    (Lt Ld Lg : Nat) (ht : 3 ≤ Lt) (hd : 3 ≤ Ld) (_hg : 1 ≤ Lg) :
    (fitResult title description tags Lt Ld Lg).title.length ≤ Lt ∧
    (fitResult title description tags Lt Ld Lg).description.length ≤ Ld ∧
    (joinTags (fitResult title description tags Lt Ld Lg).tags).length ≤ Lg := by
  refine ⟨fitField_length_le _ _ ht, fitField_length_le _ _ hd, ?_⟩
  exact finalTags_joined_le tags Lg

/-- Witness for `c1_fitter_bounds` at a concrete input. -/
theorem c1_fitter_bounds_witness :
    (3 ≤ 4 ∧ 3 ≤ 5 ∧ 1 ≤ 6) ∧
    ((fitResult (strL ("abcdef")) (strL ("wxyz")) [JSValue.str (strL ("hi"))] 4 5 6).title.length ≤ 4 ∧
     (fitResult (strL ("abcdef")) (strL ("wxyz")) [JSValue.str (strL ("hi"))] 4 5 6).description.length ≤ 5 ∧
     (joinTags (fitResult (strL ("abcdef")) (strL ("wxyz")) [JSValue.str (strL ("hi"))] 4 5 6).tags).length ≤ 6) :=
  ⟨by decide,
   c1_fitter_bounds (strL ("abcdef")) (strL ("wxyz")) [JSValue.str (strL ("hi"))] 4 5 6
     (by decide) (by decide) (by decide)⟩

/-- The raw completion of Scenario A: prose wrapped around a JSON object. -/
def scenarioARaw : List Char :=
  strL ("Sure! \x7b\"title\":\"A cat on a mat\",\"description\":\"A small orange cat sits on a blue mat in a sunlit room.\",\"tags\":[\"cat\",\"mat\",\"indoor\",\"pet\"]\x7d Hope that helps!")

/-- The greedy loop returns an initial segment of its input: once a tag is
rejected, the loop breaks, so no later tag is ever admitted. -/
theorem accumGo_take (L : Nat) :
    ∀ (ts : List (List Char)) (cur : Nat) (first : Bool),
      ∃ n, accumGo L ts cur first = ts.take n := by
  intro ts
  induction ts with
  | nil => exact fun cur first => ⟨0, rfl⟩
  | cons t ts ih =>
    intro cur first
    simp only [accumGo]
    by_cases hc : cur + (if first then 0 else 2) + t.length ≤ L
    · rw [if_pos hc]
      obtain ⟨n, hn⟩ := ih (cur + (if first then 0 else 2) + t.length) false
      exact ⟨n + 1, by rw [hn]; rfl⟩
    · rw [if_neg hc]
      exact ⟨0, rfl⟩

/-- C2: the Field Fitter's tag accumulation is a strict greedy prefix of the
normalized tag sequence (tags in original order, stop at the first
rejection, never skip-and-continue), and on the Scenario A raw completion
with limits (20, 40, 20) the endpoint's success response carries exactly the
tags `["cat", "mat", "indoor"]` (the admission costs being 3, then +5 = 8,
then +8 = 16, while `", pet"` would reach 21 > 20). -/
theorem c2_tag_greedy :
    (∀ (title description : List Char) (tags : List JSValue) (Lt Ld Lg : Nat),
      ∃ n, (fitResult title description tags Lt Ld Lg).tags = (normalizedTags tags).take n) ∧
    (analyzeImage (some (JSValue.str (strL ("img")))) 20 40 20
        (.completed scenarioARaw)).1 =
      ApiResponse.ok (JSValue.str (strL ("A cat on a mat")))
        (JSValue.str (strL ("A small orange cat sits on a blue mat...")))
        [strL ("cat"), strL ("mat"), strL ("indoor")] := by
  constructor
  · intro title description tags Lt Ld Lg
    exact accumGo_take Lg (normalizedTags tags) 0 true
  · rfl

/-- C9: a request body whose `image` field is absent is answered by the 400
client-error response of line 36, before the inference call (the recorded
call flag is `false`), and the response is not a fallback AnalysisResult —
this holds whatever the limits and whatever the inference collaborator would
have returned. -/
theorem c9_missing_image (Lt Ld Lg : Nat) (outcome : InferenceOutcome) :
    analyzeImage none Lt Ld Lg outcome = (ApiResponse.badRequest, false) ∧
    statusCode (analyzeImage none Lt Ld Lg outcome).1 = 400 := by
  constructor <;> rfl

/-- C6, counterexample to the claim as stated: on the fallback path with the
positive tags limit 10, the response leaving the pipeline carries the fixed
tag list, whose `", "`-joined rendering has length 47 > 10 — the §3 tags
invariant fails. -/
theorem c6_counterexample :
    (analyzeImage (some (JSValue.str (strL ("img")))) 40 200 10 .transportErr).1 =
      fallbackResp 40 200 ∧
    ¬ ((joinTags (fallbackResult 40 200).tags).length ≤ 10) := by
  exact ⟨rfl, by decide⟩

/-- C6 (amended): on the fallback path the title and description bounds hold
whenever their limits are at least 3, and the fixed tag list joins to exactly
47 characters, so the tags bound holds exactly when `tagsLimit ≥ 47` — not
for every positive tagsLimit. -/
theorem c6_fallback_bounds (Lt Ld Lg : Nat) (ht : 3 ≤ Lt) (hd : 3 ≤ Ld)
    (hg : 47 ≤ Lg) :
    (fallbackResult Lt Ld).title.length ≤ Lt ∧
    (fallbackResult Lt Ld).description.length ≤ Ld ∧
    (joinTags (fallbackResult Lt Ld).tags).length ≤ Lg := by
  refine ⟨fitField_length_le _ _ ht, fitField_length_le _ _ hd, ?_⟩
  have h47 : (joinTags (fallbackResult Lt Ld).tags).length = 47 := by
    show (joinTags [strL ("Image Analysis"), strL ("Visual Processing"),
      strL ("AI Detection")]).length = 47
    decide
  omega

/-- Witness for `c6_fallback_bounds` at a concrete input. -/
theorem c6_fallback_bounds_witness :
    (3 ≤ 40 ∧ 3 ≤ 200 ∧ 47 ≤ 47) ∧
    ((fallbackResult 40 200).title.length ≤ 40 ∧
     (fallbackResult 40 200).description.length ≤ 200 ∧
     (joinTags (fallbackResult 40 200).tags).length ≤ 47) :=
  ⟨by decide, c6_fallback_bounds 40 200 47 (by decide) (by decide) (by decide)⟩

/-- `Math.ceil` of an integer halved is the floor of its successor halved
(`Int` division in this development rounds toward negative infinity for the
positive divisor 2). -/
theorem ceil_half_int (n : Int) : ⌈((n : ℚ)) / 2⌉ = (n + 1) / 2 := by
  have h1 : 2 * ((n + 1) / 2) ≤ n + 1 := by omega
  have h2 : n - 1 < 2 * ((n + 1) / 2) := by omega
  rw [Int.ceil_eq_iff]
  constructor
  · rw [lt_div_iff₀ (by norm_num : (0 : ℚ) < 2)]
    exact_mod_cast show ((n + 1) / 2 - 1) * 2 < n by omega
  · rw [div_le_iff₀ (by norm_num : (0 : ℚ) < 2)]
    exact_mod_cast show n ≤ (n + 1) / 2 * 2 by omega

/-- C10: for all integer limits, the generation-size control value sent to
the inference collaborator equals
`max(512, ceil((descriptionLength + titleLength) / 2) + 256)` — equivalently
the integer `(descriptionLength + titleLength + 1) / 2 + 256` floored — and
the temperature parameter is the fixed `0.9`, independent of all inputs. -/
theorem c10_generation_config (titleLength descriptionLength : Int) :
    (generationConfig titleLength descriptionLength).maxOutputTokens =
      max 512 ((descriptionLength + titleLength + 1) / 2 + 256) ∧
    (generationConfig titleLength descriptionLength).temperature = 9 / 10 := by
  constructor
  · show max 512 (⌈((descriptionLength : ℚ) + (titleLength : ℚ)) / 2⌉ + 256) = _
    rw [show ((descriptionLength : ℚ) + (titleLength : ℚ)) =
          (((descriptionLength + titleLength : Int) : ℚ)) by push_cast; ring,
        ceil_half_int]
  · rfl

theorem firstIdx_eq_none (c : Char) : ∀ s : List Char, firstIdx c s = none ↔ c ∉ s := by
  intro s
  induction s with
  | nil => simp [firstIdx]
  | cons d ds ih =>
    by_cases h : d = c
    · subst h; simp [firstIdx]
    · rw [firstIdx, if_neg h]
      simp only [Option.map_eq_none', ih, List.mem_cons]
      constructor
      · rintro hnot (rfl | h2)
        · exact h rfl
        · exact hnot h2
      · exact fun hnot h2 => hnot (Or.inr h2)

theorem lastIdx_eq_none (c : Char) : ∀ s : List Char, lastIdx c s = none ↔ c ∉ s := by
  intro s
  induction s with
  | nil => simp [lastIdx]
  | cons d ds ih =>
    rw [lastIdx]
    cases hl : lastIdx c ds with
    | some j =>
      have hc : c ∈ ds := by
        by_contra hn
        rw [ih.mpr hn] at hl
        cases hl
      exact iff_of_false (by simp) (by simp [List.mem_cons, hc])
    | none =>
      by_cases hd : d = c
      · rw [if_pos hd]
        exact iff_of_false (by simp) (by simp [hd, List.mem_cons])
      · rw [if_neg hd]
        refine iff_of_true rfl ?_
        have hnotin : c ∉ ds := ih.mp hl
        simp only [List.mem_cons]
        rintro (rfl | h2)
        · exact hd rfl
        · exact hnotin h2

theorem firstIdx_spec (c : Char) :
    ∀ (s : List Char) (i : Nat), firstIdx c s = some i →
      s.get? i = some c ∧ ∀ k, k < i → s.get? k ≠ some c := by
  intro s
  induction s with
  | nil => intro i h; cases h
  | cons d ds ih =>
    intro i h
    by_cases hd : d = c
    · rw [firstIdx, if_pos hd] at h
      injection h with h0
      subst h0
      exact ⟨by simp [hd], fun k hk => absurd hk (Nat.not_lt_zero k)⟩
    · rw [firstIdx, if_neg hd] at h
      cases hf : firstIdx c ds with
      | none => rw [hf] at h; cases h
      | some j =>
        rw [hf] at h
        simp only [Option.map_some'] at h
        injection h with h0
        subst h0
        obtain ⟨h1, h2⟩ := ih j hf
        refine ⟨by simpa using h1, ?_⟩
        intro k hk
        cases k with
        | zero =>
          simp only [List.get?_cons_zero]
          intro hcontra
          injection hcontra with he
          exact hd he
        | succ k' =>
          simp only [List.get?_cons_succ]
          exact h2 k' (by omega)

theorem lastIdx_spec (c : Char) :
    ∀ (s : List Char) (j : Nat), lastIdx c s = some j →
      s.get? j = some c ∧ ∀ k, j < k → s.get? k ≠ some c := by
  intro s
  induction s with
  | nil => intro j h; cases h
  | cons d ds ih =>
    intro j h
    rw [lastIdx] at h
    cases hl : lastIdx c ds with
    | some j' =>
      rw [hl] at h
      injection h with h0
      subst h0
      obtain ⟨h1, h2⟩ := ih j' hl
      refine ⟨by simpa using h1, ?_⟩
      intro k hk
      cases k with
      | zero => omega
      | succ k' =>
        simp only [List.get?_cons_succ]
        exact h2 k' (by omega)
    | none =>
      rw [hl] at h
      by_cases hd : d = c
      · rw [if_pos hd] at h
        injection h with h0
        subst h0
        refine ⟨by simp [hd], ?_⟩
        intro k hk
        cases k with
        | zero => omega
        | succ k' =>
          simp only [List.get?_cons_succ]
          intro hcontra
          exact (lastIdx_eq_none c ds).mp hl (List.get?_mem hcontra)
      · rw [if_neg hd] at h
        cases h

/-- `i` is the index of the first occurrence of `c` in `s`. -/
def firstOccAt (c : Char) (s : List Char) (i : Nat) : Prop :=
  s.get? i = some c ∧ ∀ k, k < i → s.get? k ≠ some c

/-- `j` is the index of the last occurrence of `c` in `s`. -/
def lastOccAt (c : Char) (s : List Char) (j : Nat) : Prop :=
  s.get? j = some c ∧ ∀ k, j < k → s.get? k ≠ some c

/-- C7: the JSON Extractor fails (no regex match, hence the extraction
error) whenever the raw completion contains no opening or no closing brace;
and whenever it succeeds, the substring handed to `JSON.parse` is exactly
the one spanning from the first occurrence of the opening brace to the last
occurrence of the closing brace. -/
theorem c7_extractor (text : List Char) :
    (('\x7b' ∉ text ∨ '\x7d' ∉ text) → extractJson text = none) ∧
    (∀ s, extractJson text = some s →
      ∃ i j, firstOccAt '\x7b' text i ∧ lastOccAt '\x7d' text j ∧ i < j ∧
        s = (text.take (j + 1)).drop i) := by
  constructor
  · rintro (h | h)
    · cases hf : firstIdx '\x7b' text with
      | none =>
        unfold extractJson
        rw [hf]
      | some i => exact absurd hf (by rw [(firstIdx_eq_none _ _).mpr h]; simp)
    · cases hl : lastIdx '\x7d' text with
      | none =>
        unfold extractJson
        rw [hl]
        cases firstIdx '\x7b' text <;> rfl
      | some j => exact absurd hl (by rw [(lastIdx_eq_none _ _).mpr h]; simp)
  · intro s hs
    unfold extractJson at hs
    cases hf : firstIdx '\x7b' text with
    | none =>
      rw [hf] at hs
      cases hl : lastIdx '\x7d' text <;> rw [hl] at hs <;> exact Option.noConfusion hs
    | some i =>
      cases hl : lastIdx '\x7d' text with
      | none => rw [hf, hl] at hs; exact Option.noConfusion hs
      | some j =>
        rw [hf, hl] at hs
        have hs2 : (if i < j then some ((text.take (j + 1)).drop i) else none) = some s := hs
        by_cases hij : i < j
        · rw [if_pos hij] at hs2
          injection hs2 with hs'
          obtain ⟨h1, h2⟩ := firstIdx_spec _ _ _ hf
          obtain ⟨h3, h4⟩ := lastIdx_spec _ _ _ hl
          exact ⟨i, j, ⟨h1, h2⟩, ⟨h3, h4⟩, hij, hs'.symm⟩
        · rw [if_neg hij] at hs2
          exact Option.noConfusion hs2

/-- Witness for `c7_extractor`: a completion with no brace at all makes the
extractor fail. -/
theorem c7_extractor_witness : extractJson (strL ("plain prose answer")) = none :=
  (c7_extractor (strL ("plain prose answer"))).1 (Or.inl (by decide))

/-- The JS-falsy property values: absent (`undefined`), `null`, `false`,
`0`, or the empty string. -/
def falsyOpt (o : Option JSValue) : Prop :=
  o = none ∨ o = some .null ∨ o = some (.bool false) ∨ o = some (.num 0) ∨
    o = some (.str [])

theorem truthyOpt_eq_false_iff (o : Option JSValue) :
    truthyOpt o = false ↔ falsyOpt o := by
  cases o with
  | none => simp [truthyOpt, falsyOpt]
  | some v =>
    cases v with
    | null => simp [truthyOpt, truthy, falsyOpt]
    | bool b => cases b <;> simp [truthyOpt, truthy, falsyOpt]
    | num n => simp [truthyOpt, truthy, falsyOpt]
    | str s => simp [truthyOpt, truthy, falsyOpt, List.isEmpty_iff]
    | arr xs => simp [truthyOpt, truthy, falsyOpt]
    | obj fs => simp [truthyOpt, truthy, falsyOpt]

theorem isArrOpt_eq_false_iff (o : Option JSValue) :
    isArrOpt o = false ↔ ∀ xs, o ≠ some (JSValue.arr xs) := by
  cases o with
  | none => simp [isArrOpt]
  | some v => cases v <;> simp [isArrOpt]

theorem isArrOpt_eq_true_iff (o : Option JSValue) :
    isArrOpt o = true ↔ ∃ xs, o = some (JSValue.arr xs) := by
  cases o with
  | none => simp [isArrOpt]
  | some v => cases v <;> simp [isArrOpt]

/-- C5, counterexample to the claim as stated: the candidate
`\x7b"title": 5, "description": "d", "tags": []\x7d` has a title that is not a
non-empty string (it is the number 5), yet validation passes, because the
check is JS truthiness (`!title`), not a type check. -/
theorem c5_counterexample :
    validateShape (JSValue.obj [(strL ("title"), JSValue.num 5),
      (strL ("description"), JSValue.str (strL ("d"))),
      (strL ("tags"), JSValue.arr [])]) = true ∧
    jsGetField (JSValue.obj [(strL ("title"), JSValue.num 5),
      (strL ("description"), JSValue.str (strL ("d"))),
      (strL ("tags"), JSValue.arr [])]) (strL ("title")) = some (JSValue.num 5) :=
  ⟨rfl, rfl⟩

/-- C5 (amended): validation fails exactly when the parsed candidate's
`title` is falsy (absent, null, false, 0, or the empty string), or its
`description` is falsy, or its `tags` is not an array; no coercion is
attempted, so a candidate passing validation has an array `tags` and truthy
`title` and `description` — but not necessarily string ones (a non-zero
number, a non-empty array, or any object also passes). -/
theorem c5_validator (g : JSValue) :
    (validateShape g = false ↔
      (falsyOpt (jsGetField g (strL ("title"))) ∨
       falsyOpt (jsGetField g (strL ("description"))) ∨
       ∀ xs, jsGetField g (strL ("tags")) ≠ some (JSValue.arr xs))) ∧
    (validateShape g = true → ∃ xs, jsGetField g (strL ("tags")) = some (JSValue.arr xs)) := by
  constructor
  · unfold validateShape
    rw [← truthyOpt_eq_false_iff, ← truthyOpt_eq_false_iff, ← isArrOpt_eq_false_iff]
    cases truthyOpt (jsGetField g (strL ("title"))) <;>
      cases truthyOpt (jsGetField g (strL ("description"))) <;>
      cases isArrOpt (jsGetField g (strL ("tags"))) <;> simp
  · intro hv
    rw [← isArrOpt_eq_true_iff]
    unfold validateShape at hv
    cases hA : isArrOpt (jsGetField g (strL ("tags")))
    · rw [hA] at hv; simp at hv
    · rfl

/-- Witness for `c5_validator` on a fully valid candidate. -/
theorem c5_validator_witness :
    validateShape (JSValue.obj [(strL ("title"), JSValue.str (strL ("t"))),
      (strL ("description"), JSValue.str (strL ("d"))),
      (strL ("tags"), JSValue.arr [JSValue.str (strL ("cat"))])]) = true ∧
    ∃ xs, jsGetField (JSValue.obj [(strL ("title"), JSValue.str (strL ("t"))),
      (strL ("description"), JSValue.str (strL ("d"))),
      (strL ("tags"), JSValue.arr [JSValue.str (strL ("cat"))])]) (strL ("tags")) =
        some (JSValue.arr xs) :=
  ⟨rfl, (c5_validator (JSValue.obj [(strL ("title"), JSValue.str (strL ("t"))),
      (strL ("description"), JSValue.str (strL ("d"))),
      (strL ("tags"), JSValue.arr [JSValue.str (strL ("cat"))])])).2 rfl⟩

/-- C8: with an image present, every failure of the inference call chain —
transport error from the inference collaborator, extraction failure, JSON
parse failure, or shape-validation failure — makes the endpoint respond with
the Fallback Generator's schema-shaped result (status 200 via `res.json`),
never an error response; in particular a raw completion containing no
opening brace yields the fallback result. -/
theorem c8_failures_fallback (img : JSValue) (himg : truthy img = true)
    (Lt Ld Lg : Nat) :
    (analyzeImage (some img) Lt Ld Lg .transportErr = (fallbackResp Lt Ld, true) ∧
      statusCode (fallbackResp Lt Ld) = 200) ∧
    (∀ text, extractJson text = none →
      analyzeImage (some img) Lt Ld Lg (.completed text) = (fallbackResp Lt Ld, true)) ∧
    (∀ text span, extractJson text = some span → jsonParse span = none →
      analyzeImage (some img) Lt Ld Lg (.completed text) = (fallbackResp Lt Ld, true)) ∧
    (∀ text span g, extractJson text = some span → jsonParse span = some g →
      validateShape g = false →
      analyzeImage (some img) Lt Ld Lg (.completed text) = (fallbackResp Lt Ld, true)) ∧
    analyzeImage (some img) Lt Ld Lg
        (.completed (strL ("I am sorry, I cannot describe this image.")))
      = (fallbackResp Lt Ld, true) := by
  have hTruthy : ¬ (truthyOpt (some img) = false) := by
    simp [truthyOpt, himg]
  refine ⟨⟨?_, rfl⟩, ?_, ?_, ?_, ?_⟩
  · rw [analyzeImage, if_neg hTruthy]
  · intro text hext
    rw [analyzeImage, if_neg hTruthy]
    simp only [hext]
  · intro text span hext hparse
    rw [analyzeImage, if_neg hTruthy]
    simp only [hext, hparse]
  · intro text span g hext hparse hval
    rw [analyzeImage, if_neg hTruthy]
    simp only [hext, hparse, hval, if_pos]
  · rw [analyzeImage, if_neg hTruthy]
    have hext : extractJson (strL ("I am sorry, I cannot describe this image.")) = none := by
      decide
    simp only [hext]

/-- Witness for `c8_failures_fallback` at a concrete image payload. -/
theorem c8_failures_fallback_witness :
    truthy (JSValue.str (strL ("iVBOR"))) = true ∧
    analyzeImage (some (JSValue.str (strL ("iVBOR")))) 20 40 20 .transportErr =
      (fallbackResp 20 40, true) :=
  ⟨by decide,
   (c8_failures_fallback (JSValue.str (strL ("iVBOR"))) (by decide) 20 40 20).1.1⟩

/-- A character admissible in a normalized tag: either not a `[#\s]`
character at all, or the plain space that replaced a run. -/
def goodChar (c : Char) : Bool := !(runChar c) || c = ' '

/-- No two adjacent `[#\s]` characters. -/
def noAdjRun : List Char → Bool
  | c :: d :: rest => (!(runChar c && runChar d)) && noAdjRun (d :: rest)
  | _ => true

/-- Shape of the output of run collapsing: every character good, and no two
adjacent run characters. -/
def cleanStr (l : List Char) : Bool := l.all goodChar && noAdjRun l

theorem cleanStr_head_good (c : Char) (cs : List Char)
    (h : cleanStr (c :: cs) = true) : goodChar c = true := by
  unfold cleanStr at h
  rw [Bool.and_eq_true, List.all_cons, Bool.and_eq_true] at h
  exact h.1.1

theorem cleanStr_adj (c d : Char) (ds : List Char)
    (h : cleanStr (c :: d :: ds) = true) : (runChar c && runChar d) = false := by
  unfold cleanStr at h
  rw [Bool.and_eq_true] at h
  have h2 := h.2
  rw [show noAdjRun (c :: d :: ds) = ((!(runChar c && runChar d)) && noAdjRun (d :: ds))
        from rfl,
      Bool.and_eq_true] at h2
  obtain ⟨ha, _⟩ := h2
  rwa [Bool.not_eq_true'] at ha

theorem cleanStr_tail (c : Char) (cs : List Char)
    (h : cleanStr (c :: cs) = true) : cleanStr cs = true := by
  unfold cleanStr at h ⊢
  rw [Bool.and_eq_true, List.all_cons, Bool.and_eq_true] at h
  rw [Bool.and_eq_true]
  refine ⟨h.1.2, ?_⟩
  cases cs with
  | nil => rfl
  | cons d ds =>
    have h2 := h.2
    rw [show noAdjRun (c :: d :: ds) = ((!(runChar c && runChar d)) && noAdjRun (d :: ds))
          from rfl,
        Bool.and_eq_true] at h2
    exact h2.2

theorem cleanStr_cons (c : Char) (X : List Char) (hc : goodChar c = true)
    (hX : cleanStr X = true)
    (hhead : ∀ d ds, X = d :: ds → (runChar c = false ∨ runChar d = false)) :
    cleanStr (c :: X) = true := by
  unfold cleanStr at hX ⊢
  rw [Bool.and_eq_true] at hX
  rw [Bool.and_eq_true, List.all_cons, Bool.and_eq_true]
  refine ⟨⟨hc, hX.1⟩, ?_⟩
  cases X with
  | nil => rfl
  | cons d ds =>
    rw [show noAdjRun (c :: d :: ds) = ((!(runChar c && runChar d)) && noAdjRun (d :: ds))
          from rfl,
        Bool.and_eq_true]
    refine ⟨?_, hX.2⟩
    rcases hhead d ds rfl with h | h <;> simp [h]

theorem collapseGo_true_head (cs : List Char) :
    ∀ d ds, collapseGo true cs = d :: ds → runChar d = false := by
  induction cs with
  | nil => intro d ds h; cases h
  | cons c cs ih =>
    intro d ds h
    by_cases hr : runChar c = true
    · rw [show collapseGo true (c :: cs) = collapseGo true cs by
          simp [collapseGo, hr]] at h
      exact ih d ds h
    · rw [show collapseGo true (c :: cs) = c :: collapseGo false cs by
          simp [collapseGo, hr]] at h
      injection h with h1 _
      rw [← h1]
      simpa using hr

theorem collapseGo_clean (s : List Char) :
    cleanStr (collapseGo false s) = true ∧ cleanStr (collapseGo true s) = true := by
  induction s with
  | nil => exact ⟨rfl, rfl⟩
  | cons c cs ih =>
    obtain ⟨ihf, iht⟩ := ih
    by_cases hr : runChar c = true
    · constructor
      · rw [show collapseGo false (c :: cs) = ' ' :: collapseGo true cs by
            simp [collapseGo, hr]]
        refine cleanStr_cons ' ' _ (by decide) iht ?_
        exact fun d ds h => Or.inr (collapseGo_true_head cs d ds h)
      · rw [show collapseGo true (c :: cs) = collapseGo true cs by
            simp [collapseGo, hr]]
        exact iht
    · have hr' : runChar c = false := by simpa using hr
      have hcons : cleanStr (c :: collapseGo false cs) = true := by
        refine cleanStr_cons c _ (by simp [goodChar, hr']) ihf ?_
        exact fun d ds _ => Or.inl hr'
      constructor
      · rw [show collapseGo false (c :: cs) = c :: collapseGo false cs by
            simp [collapseGo, hr']]
        exact hcons
      · rw [show collapseGo true (c :: cs) = c :: collapseGo false cs by
            simp [collapseGo, hr']]
        exact hcons

theorem collapseGo_fix : ∀ t, cleanStr t = true → collapseGo false t = t := by
  intro t
  induction t with
  | nil => intro _; rfl
  | cons c cs ih =>
    intro h
    have hcs : cleanStr cs = true := cleanStr_tail c cs h
    by_cases hr : runChar c = true
    · have hgc := cleanStr_head_good c cs h
      have hsp : c = ' ' := by
        unfold goodChar at hgc
        rw [hr] at hgc
        simpa using hgc
      subst hsp
      rw [show collapseGo false (' ' :: cs) = ' ' :: collapseGo true cs by
          simp [collapseGo, hr]]
      congr 1
      cases cs with
      | nil => rfl
      | cons d ds =>
        have hadj := cleanStr_adj ' ' d ds h
        rw [hr] at hadj
        have hd : runChar d = false := by simpa using hadj
        have hrec := ih hcs
        rw [show collapseGo false (d :: ds) = d :: collapseGo false ds by
            simp [collapseGo, hd]] at hrec
        injection hrec with _ h2
        rw [show collapseGo true (d :: ds) = d :: collapseGo false ds by
            simp [collapseGo, hd], h2]
    · have hr' : runChar c = false := by simpa using hr
      rw [show collapseGo false (c :: cs) = c :: collapseGo false cs by
          simp [collapseGo, hr'], ih hcs]

theorem trimEnd_head (s : List Char) :
    ∀ d ds, trimEnd s = d :: ds → ∃ es, s = d :: es := by
  cases s with
  | nil => intro d ds h; cases h
  | cons c cs =>
    intro d ds h
    rw [trimEnd] at h
    cases htc : trimEnd cs with
    | nil =>
      rw [htc] at h
      by_cases hw : jsWhitespace c = true
      · rw [if_pos hw] at h; cases h
      · rw [if_neg hw] at h
        injection h with h1 _
        exact ⟨cs, by rw [h1]⟩
    | cons r rs =>
      rw [htc] at h
      injection h with h1 _
      exact ⟨cs, by rw [h1]⟩

theorem cleanStr_trimEnd (t : List Char) (h : cleanStr t = true) :
    cleanStr (trimEnd t) = true := by
  induction t with
  | nil => exact h
  | cons c cs ih =>
    have hcs := cleanStr_tail c cs h
    have hgc := cleanStr_head_good c cs h
    rw [trimEnd]
    cases htc : trimEnd cs with
    | nil =>
      by_cases hw : jsWhitespace c = true
      · rw [if_pos hw]; rfl
      · rw [if_neg hw]
        exact cleanStr_cons c [] hgc rfl (fun d ds hdds => by cases hdds)
    | cons r rs =>
      refine cleanStr_cons c (r :: rs) hgc (htc ▸ ih hcs) ?_
      intro d ds hdds
      have hdr : r = d := (List.cons.inj hdds).1
      obtain ⟨es, hes⟩ := trimEnd_head cs r rs htc
      rw [hes] at h
      have hadj := cleanStr_adj c r es h
      rw [hdr] at hadj
      by_cases hc : runChar c = true
      · rw [hc] at hadj
        right
        simpa using hadj
      · left
        simpa using hc

theorem cleanStr_dropWhile (p : Char → Bool) (t : List Char) (h : cleanStr t = true) :
    cleanStr (t.dropWhile p) = true := by
  induction t with
  | nil => exact h
  | cons c cs ih =>
    rw [List.dropWhile_cons]
    by_cases hp : p c = true
    · rw [if_pos hp]
      exact ih (cleanStr_tail c cs h)
    · rw [if_neg hp]
      exact h

theorem trimEnd_idem (t : List Char) : trimEnd (trimEnd t) = trimEnd t := by
  induction t with
  | nil => rfl
  | cons c cs ih =>
    cases htc : trimEnd cs with
    | nil =>
      by_cases hw : jsWhitespace c = true
      · have h1 : trimEnd (c :: cs) = [] := by
          rw [trimEnd, htc]
          exact if_pos hw
        rw [h1]
        rfl
      · have h1 : trimEnd (c :: cs) = [c] := by
          rw [trimEnd, htc]
          exact if_neg hw
        rw [h1, trimEnd]
        show (if jsWhitespace c then ([] : List Char) else [c]) = [c]
        exact if_neg hw
    | cons r rs =>
      have h1 : trimEnd (c :: cs) = c :: r :: rs := by
        rw [trimEnd, htc]
      rw [htc] at ih
      rw [h1, trimEnd, ih]

theorem dropWhile_head (p : Char → Bool) (s : List Char) :
    ∀ d ds, s.dropWhile p = d :: ds → p d = false := by
  induction s with
  | nil => intro d ds h; cases h
  | cons c cs ih =>
    intro d ds h
    rw [List.dropWhile_cons] at h
    by_cases hp : p c = true
    · rw [if_pos hp] at h
      exact ih d ds h
    · rw [if_neg hp] at h
      injection h with h1 _
      rw [← h1]
      simpa using hp

theorem jsTrim_idem (t : List Char) : jsTrim (jsTrim t) = jsTrim t := by
  unfold jsTrim
  have hdw : (trimEnd (t.dropWhile jsWhitespace)).dropWhile jsWhitespace
      = trimEnd (t.dropWhile jsWhitespace) := by
    cases hte : trimEnd (t.dropWhile jsWhitespace) with
    | nil => rfl
    | cons d ds =>
      obtain ⟨es, hes⟩ := trimEnd_head _ d ds hte
      have hd : jsWhitespace d = false := dropWhile_head jsWhitespace t d es hes
      rw [List.dropWhile_cons, if_neg (by rw [hd]; intro hcontra; cases hcontra)]
  rw [hdw, trimEnd_idem]

theorem cleanStr_jsTrim (t : List Char) (h : cleanStr t = true) :
    cleanStr (jsTrim t) = true :=
  cleanStr_trimEnd _ (cleanStr_dropWhile _ _ h)

theorem normalizeTag_clean (s : List Char) : cleanStr (normalizeTag s) = true :=
  cleanStr_jsTrim _ (collapseGo_clean s).1

/-- A normalized tag is already trimmed. -/
theorem jsTrim_normalizeTag (s : List Char) :
    jsTrim (normalizeTag s) = normalizeTag s :=
  jsTrim_idem (collapseRuns s)

/-- Normalization is a projection: a second pass over a normalized tag is
the identity (its runs are already collapsed and its ends trimmed). -/
theorem normalizeTag_fix (s : List Char) :
    normalizeTag (normalizeTag s) = normalizeTag s := by
  show jsTrim (collapseGo false (normalizeTag s)) = normalizeTag s
  rw [collapseGo_fix _ (normalizeTag_clean s)]
  exact jsTrim_normalizeTag s

/-- Every fitted tag comes from the normalized tag sequence. -/
theorem mem_finalTags (tags : List JSValue) (L : Nat) (t : List Char)
    (ht : t ∈ finalTags tags L) : t ∈ normalizedTags tags := by
  obtain ⟨n, hn⟩ := accumGo_take L (normalizedTags tags) 0 true
  unfold finalTags at ht
  rw [hn] at ht
  exact List.take_subset n _ ht

/-- Characterization of membership in the normalized tag sequence: the tag
is the normalization of a raw string tag whose trim was non-empty. -/
theorem mem_normalizedTags (tags : List JSValue) (t : List Char)
    (ht : t ∈ normalizedTags tags) :
    ∃ s, JSValue.str s ∈ tags ∧ jsTrim s ≠ [] ∧ t = normalizeTag s := by
  unfold normalizedTags at ht
  rw [List.mem_filterMap] at ht
  obtain ⟨v, hv, hf⟩ := ht
  cases v with
  | str s =>
    have hf2 : (if 0 < (jsTrim s).length then some (normalizeTag s) else none) = some t := hf
    by_cases hp : 0 < (jsTrim s).length
    · rw [if_pos hp] at hf2
      injection hf2 with hf3
      exact ⟨s, hv, fun hnil => by rw [hnil] at hp; simp at hp, hf3.symm⟩
    · rw [if_neg hp] at hf2
      cases hf2
  | null => exact Option.noConfusion hf
  | bool b => exact Option.noConfusion hf
  | num n => exact Option.noConfusion hf
  | arr xs => exact Option.noConfusion hf
  | obj fs => exact Option.noConfusion hf

/-- On tags that are already normalized, trimmed and non-empty, the
filter-and-normalize pass of lines 113-115 is the identity. -/
theorem normalizedTags_map_str (l : List (List Char))
    (h : ∀ t ∈ l, jsTrim t = t ∧ normalizeTag t = t ∧ t ≠ []) :
    normalizedTags (l.map JSValue.str) = l := by
  induction l with
  | nil => rfl
  | cons t ts ih =>
    obtain ⟨ht1, ht2, ht3⟩ := h t (List.mem_cons_self t ts)
    have hpos : 0 < (jsTrim t).length := by
      rw [ht1]
      exact List.length_pos.mpr ht3
    have hfa : normTagStep (JSValue.str t) = some t := by
      show (if 0 < (jsTrim t).length then some (normalizeTag t) else none) = some t
      rw [if_pos hpos, ht2]
    unfold normalizedTags
    rw [List.map_cons, List.filterMap_cons, hfa]
    show t :: normalizedTags (List.map JSValue.str ts) = t :: ts
    rw [ih (fun u hu => h u (List.mem_cons_of_mem t hu))]

/-- If the whole remaining cost fits in the budget, the greedy loop admits
every tag. -/
theorem accumGo_full (L : Nat) :
    ∀ ts cur first, cur + tagCost first ts ≤ L → accumGo L ts cur first = ts := by
  intro ts
  induction ts with
  | nil => intro cur first _; rfl
  | cons t ts ih =>
    intro cur first h
    rw [show tagCost first (t :: ts)
          = (if first then 0 else 2) + t.length + tagCost false ts from rfl] at h
    simp only [accumGo]
    rw [if_pos (by omega)]
    congr 1
    exact ih (cur + (if first then 0 else 2) + t.length) false (by omega)

/-- C4, counterexample to the claim as stated: the raw tag `"#"` has a
non-empty trim, so it survives the filter (which runs BEFORE normalization),
and its normalization is the empty string — which is admitted by the greedy
loop and appears in the output tags. The output contains an empty tag, and
an empty-after-normalization raw tag was not discarded. -/
theorem c4_counterexample :
    (fitResult (strL ("t")) (strL ("d")) [JSValue.str (strL ("#"))] 10 10 10).tags
      = [([] : List Char)] := by
  decide

/-- C4 (amended): every tag in the tags list produced by the Field Fitter is
the normalization (runs of `#`/whitespace collapsed to single spaces, ends
trimmed) of some raw string tag whose trim was non-empty — in particular it
is a fixpoint of normalization — but it may be the EMPTY string: raw tags
that are empty only after normalization (e.g. `"#"`) are not discarded. -/
theorem c4_tag_normalization (tags : List JSValue) (L : Nat) (t : List Char)
    (ht : t ∈ finalTags tags L) :
    normalizeTag t = t ∧
    ∃ s, JSValue.str s ∈ tags ∧ jsTrim s ≠ [] ∧ t = normalizeTag s := by
  obtain ⟨s, hs, hne, heq⟩ :=
    mem_normalizedTags tags t (mem_finalTags tags L t ht)
  subst heq
  exact ⟨normalizeTag_fix s, s, hs, hne, rfl⟩

/-- Witness for `c4_tag_normalization` at a concrete input. -/
theorem c4_tag_normalization_witness :
    (strL ("cat") ∈ finalTags [JSValue.str (strL ("cat"))] 20) ∧
    (normalizeTag (strL ("cat")) = strL ("cat") ∧
     ∃ s, JSValue.str s ∈ [JSValue.str (strL ("cat"))] ∧ jsTrim s ≠ [] ∧
       strL ("cat") = normalizeTag s) :=
  ⟨by decide, c4_tag_normalization [JSValue.str (strL ("cat"))] 20 (strL ("cat")) (by decide)⟩

/-- C3, counterexample to the claim as stated: on the shape-validated
candidate with tags `["#"]` and limits (10, 10, 10), the first fitting
produces the tag list `[""]` (the raw `"#"` survives the pre-normalization
filter and normalizes to the empty string), but re-applying the Field Fitter
to that result drops the empty tag (its trim is now empty), so the second
result differs from the first: fitting is NOT idempotent. -/
theorem c3_counterexample :
    fitResult (strL ("t")) (strL ("d"))
        (((fitResult (strL ("t")) (strL ("d")) [JSValue.str (strL ("#"))] 10 10 10).tags).map
          JSValue.str) 10 10 10
      ≠ fitResult (strL ("t")) (strL ("d")) [JSValue.str (strL ("#"))] 10 10 10 := by
  decide

/-- C3 (amended): re-applying the Field Fitter with the same limits to an
AnalysisResult it has already produced yields an identical result, PROVIDED
every tag of that result is non-empty (equivalently, no raw tag consisted
solely of `#`/whitespace yet had a non-empty trim). The title and
description components are always idempotent; only an empty fitted tag
breaks idempotence, because the pre-normalization filter discards it on the
second pass. -/
theorem c3_refit_idem (title description : List Char) (tags : List JSValue)
    (Lt Ld Lg : Nat)
    (h : ∀ t ∈ (fitResult title description tags Lt Ld Lg).tags, t ≠ []) :
    fitResult (fitResult title description tags Lt Ld Lg).title
      (fitResult title description tags Lt Ld Lg).description
      ((fitResult title description tags Lt Ld Lg).tags.map JSValue.str) Lt Ld Lg
      = fitResult title description tags Lt Ld Lg := by
  have htags : ∀ t ∈ finalTags tags Lg, jsTrim t = t ∧ normalizeTag t = t ∧ t ≠ [] := by
    intro t ht
    obtain ⟨s, _, _, heq⟩ := mem_normalizedTags tags t (mem_finalTags tags Lg t ht)
    subst heq
    exact ⟨jsTrim_normalizeTag s, normalizeTag_fix s, h _ ht⟩
  show AnalysisResult.mk _ _ _ = AnalysisResult.mk _ _ _
  rw [AnalysisResult.mk.injEq]
  refine ⟨fitField_idem title Lt, fitField_idem description Ld, ?_⟩
  show finalTags ((finalTags tags Lg).map JSValue.str) Lg = finalTags tags Lg
  unfold finalTags
  rw [show normalizedTags ((accumGo Lg (normalizedTags tags) 0 true).map JSValue.str)
        = accumGo Lg (normalizedTags tags) 0 true from normalizedTags_map_str _ htags]
  apply accumGo_full
  have hcost := accumGo_cost Lg (normalizedTags tags) 0 true (Nat.zero_le _)
  omega

/-- Witness for `c3_refit_idem` at a concrete input. -/
theorem c3_refit_idem_witness :
    (∀ t ∈ (fitResult (strL ("My photo")) (strL ("Nice picture"))
        [JSValue.str (strL ("cat")), JSValue.str (strL ("pet"))] 10 20 10).tags, t ≠ []) ∧
    fitResult (fitResult (strL ("My photo")) (strL ("Nice picture"))
        [JSValue.str (strL ("cat")), JSValue.str (strL ("pet"))] 10 20 10).title
      (fitResult (strL ("My photo")) (strL ("Nice picture"))
        [JSValue.str (strL ("cat")), JSValue.str (strL ("pet"))] 10 20 10).description
      ((fitResult (strL ("My photo")) (strL ("Nice picture"))
        [JSValue.str (strL ("cat")), JSValue.str (strL ("pet"))] 10 20 10).tags.map
        JSValue.str) 10 20 10
      = fitResult (strL ("My photo")) (strL ("Nice picture"))
        [JSValue.str (strL ("cat")), JSValue.str (strL ("pet"))] 10 20 10 :=
  ⟨by decide,
   c3_refit_idem (strL ("My photo")) (strL ("Nice picture"))
     [JSValue.str (strL ("cat")), JSValue.str (strL ("pet"))] 10 20 10 (by decide)⟩
